import Mathlib

/-!
# Verification of pyMOR's low-rank ADI Lyapunov solver

Shallow embedding of `src/pymor/algorithms/lyapunov.py`: the LR-ADI driver
`lradi`, the shift generators `projection_shifts_init` and `projection_shifts`,
and the dispatch `solve_lyap`.

External numerical routines consumed by the algorithm (dense eigenvalue
solves `spla.eigvals` on the Galerkin-projected pencil, `gram_schmidt`,
operator `apply` / `apply_inverse` actions, `np.sqrt`, the spectral norm of a
Gramian, and numpy's global random generator) are modelled as oracle
parameters: they are arbitrary functions supplied to the definitions, so the
theorems quantify over every possible behaviour of those black boxes.  The
control flow, the stability filtering `Re < 0`, the shift bookkeeping, the
real/complex step arithmetic and the iteration accounting are translated
line by line from the source.

Scalars are rationals; a complex scalar is a pair of rationals.
-/

namespace PymorLyap

/-- A complex scalar: real and imaginary part, both rational. -/
structure Cplx where
  re : ℚ
  im : ℚ
deriving DecidableEq, Repr

instance : Inhabited Cplx := ⟨⟨0, 0⟩⟩

/-- A vector: a finite list of complex entries. -/
abbrev Vec := List Cplx

/-- A vector array (`VectorArray` in pyMOR): an ordered list of vectors.
`Z` and `W` in the driver are values of this type; appending a column
block is list concatenation. -/
abbrev VecArr := List Vec

/-- Entrywise sum of two complex scalars. -/
def Cplx.add (a b : Cplx) : Cplx := ⟨a.re + b.re, a.im + b.im⟩

/-- Entrywise difference of two complex scalars. -/
def Cplx.sub (a b : Cplx) : Cplx := ⟨a.re - b.re, a.im - b.im⟩

/-- Multiplication of a complex scalar by a real (rational) scalar, as numpy
broadcasts `array * scalar`. -/
def Cplx.smul (q : ℚ) (a : Cplx) : Cplx := ⟨q * a.re, q * a.im⟩

/-- Complex conjugate (numpy `.conj()`). -/
def Cplx.conj (a : Cplx) : Cplx := ⟨a.re, -a.im⟩

/-- Entrywise sum of two vectors (shapes agree in every use site). -/
def vecAdd (v w : Vec) : Vec := List.zipWith Cplx.add v w

/-- Entrywise difference of two vectors. -/
def vecSub (v w : Vec) : Vec := List.zipWith Cplx.sub v w

/-- Entrywise sum of two vector arrays (numpy `+` / in-place `+=`). -/
def addArr (V W : VecArr) : VecArr := List.zipWith vecAdd V W

/-- Entrywise difference of two vector arrays (numpy `-` / in-place `-=`). -/
def subArr (V W : VecArr) : VecArr := List.zipWith vecSub V W

/-- Scalar multiple of a vector array (numpy `array * scalar`). -/
def smulArr (q : ℚ) (V : VecArr) : VecArr := V.map (List.map (Cplx.smul q))

/-- numpy `V.real`: the real part of each entry, as a real-valued array. -/
def reArr (V : VecArr) : VecArr := V.map (List.map (fun c => (⟨c.re, 0⟩ : Cplx)))

/-- numpy `V.imag`: the imaginary part of each entry, as a real-valued array. -/
def imArr (V : VecArr) : VecArr := V.map (List.map (fun c => (⟨c.im, 0⟩ : Cplx)))

/-- numpy `V.conj()`: entrywise complex conjugate. -/
def conjArr (V : VecArr) : VecArr := V.map (List.map Cplx.conj)

/-- The array is real-valued: every entry has imaginary part zero. -/
def IsRealArr (V : VecArr) : Prop := ∀ v ∈ V, ∀ c ∈ v, c.im = 0

instance (V : VecArr) : Decidable (IsRealArr V) := by
  unfold IsRealArr; infer_instance

/-- Shift-strategy options: the inner `shift_options['projection_shifts']`
dict of `lyap_solver_options`. -/
structure ShiftOptions where
  type : String
  z_columns : ℕ
  init_maxiter : ℕ
  init_seed : Option ℤ
  implicit_subspace : Bool
deriving DecidableEq, Repr

/-- The `lradi` solver options dict of `lyap_solver_options`.  The
`shift_options` sub-dict is keyed by strategy name; only the
`projection_shifts` entry exists, which `shiftOpts` holds directly. -/
structure LradiOptions where
  type : String
  tol : ℚ
  maxiter : ℕ
  shifts : String
  shiftOpts : ShiftOptions
deriving DecidableEq, Repr

/-- Defaults returned by `lyap_solver_options()` for the `lradi` solver
(source lines 66-88). -/
def lyap_solver_options : LradiOptions :=
  { type := "lradi"
    tol := 1 / 10 ^ 10
    maxiter := 500
    shifts := "projection_shifts"
    shiftOpts :=
      { type := "projection_shifts"
        z_columns := 1
        init_maxiter := 20
        init_seed := none
        implicit_subspace := true } }

/-- Oracle model of numpy's global random generator.  The generator state is
a natural number; `seedFn` is `np.random.seed` (its argument may be the
integer `init_seed` or the float `np.random.random() + i`, hence rational),
`randomFn` is `np.random.random()` (value drawn and successor state), and
`randFn st n m` is `np.random.rand(n, m)` wrapped by `make_array`. -/
structure RngOracles where
  seedFn : ℚ → ℕ
  randomFn : ℕ → ℚ × ℕ
  randFn : ℕ → ℕ → ℕ → VecArr × ℕ

/-- Result of the shift initializer: the `Except` value models normal return
versus the `RuntimeError`; `attempts` counts executed loop bodies (one
Galerkin eigenvalue computation per body); `rng` is the final generator
state. -/
structure InitResult where
  res : Except Unit (List Cplx)
  attempts : ℕ
  rng : ℕ
deriving Repr

/-- One unrolling of the `for i in range(init_maxiter)` loop of
`projection_shifts_init` (source lines 198-210).  `eigsOf B` is the oracle
for `spla.eigvals(A.apply2(Q,Q), E.apply2(Q,Q))` with
`Q = gram_schmidt(B, atol=0, rtol=0)`; the stability filter
`shifts[np.real(shifts) < 0]` is explicit.  `n` is the number of remaining
iterations, so the current loop index is `i = maxiter - n`. -/
def projInitAux (eigsOf : VecArr → List Cplx) (rg : RngOracles) (seed? : Option ℤ)
    (maxiter : ℕ) : ℕ → VecArr → ℕ → InitResult
  | 0, _B, st => ⟨.error (), 0, st⟩
  | n + 1, B, st =>
    let shifts := (eigsOf B).filter (fun σ => decide (σ.re < 0))
    if shifts.isEmpty then
      let i : ℚ := (maxiter - (n + 1) : ℕ)
      let draw :=
        match seed? with
        | some s =>
          let st1 := rg.seedFn (s : ℚ)
          let x := (rg.randomFn st1).1
          let st2 := rg.seedFn (x + i)
          rg.randFn st2 B.length (B.headD []).length
        | none => rg.randFn st B.length (B.headD []).length
      let r := projInitAux eigsOf rg seed? maxiter n draw.1 draw.2
      ⟨r.res, r.attempts + 1, r.rng⟩
    else
      ⟨.ok shifts, 1, st⟩

/-- `projection_shifts_init(A, E, B, shift_options)` (source lines 176-210):
retry up to `init_maxiter` times, replacing `B` by a random array of the same
shape on failure (seeding the global generator first when `init_seed` is not
`None`), and raise `RuntimeError` when every attempt produced no stable
eigenvalue. -/
def projection_shifts_init (eigsOf : VecArr → List Cplx) (rg : RngOracles)
    (opts : ShiftOptions) (B : VecArr) (st : ℕ) : InitResult :=
  projInitAux eigsOf rg opts.init_seed opts.init_maxiter opts.init_maxiter B st

/-- The `projection_shifts(A, E, Z, W, prev_shifts, shift_options)` routine
(source lines 213-303) is split into three definitions below.  The window
size `u` follows lines 239-247: `u = z_columns` clipped to
`L = prev_shifts.size` (Python: `d = L - u; if d < 0: u = L`), then enlarged
by one when `prev_shifts[-u].imag < 0` (Python's negative index `-u` is
`L - u` for `u > 0` and `0` for `u = 0`).  `Vu = Z[-u*r:]` is the trailing
window of `Z` with `r = len(W)`.  Both the implicit-subspace branch (lines
251-292: dense `B`, `G`, SVD whitening, `Ap`, `Ep`) and the explicit branch
(lines 294-296) end in `spla.eigvals(Ap, Ep)`; that dense pipeline is the
oracle `pencilEigs Vu W prev u`.  The stability filter and the concatenation
with `prev_shifts` (duplication fallback on an empty filter result) are
explicit (lines 298-303). -/
def shiftWindow (z_columns : ℕ) (prev : List Cplx) : ℕ :=
  let L := prev.length
  let u1 := if L < z_columns then L else z_columns
  let boundary := prev.getD (if u1 = 0 then 0 else L - u1) default
  if boundary.im < 0 then u1 + 1 else u1

/-- The freshly computed candidate shifts of `projection_shifts`, already
filtered for stability: `spla.eigvals(Ap, Ep)` on the projected pencil over
the trailing window `Vu = Z[-u*r:]`, restricted to `Re < 0` (source lines
249-299). -/
def freshStable (pencilEigs : VecArr → VecArr → List Cplx → ℕ → List Cplx)
    (opts : ShiftOptions) (Z W : VecArr) (prev : List Cplx) : List Cplx :=
  let u := shiftWindow opts.z_columns prev
  let Vu := Z.drop (Z.length - u * W.length)
  (pencilEigs Vu W prev u).filter (fun σ => decide (σ.re < 0))

/-- Concatenation with the previous shifts, duplicating them when no stable
eigenvalue was found (source lines 300-303). -/
def projection_shifts (pencilEigs : VecArr → VecArr → List Cplx → ℕ → List Cplx)
    (opts : ShiftOptions) (Z W : VecArr) (prev : List Cplx) : List Cplx :=
  let stable := freshStable pencilEigs opts Z W prev
  if stable.isEmpty then prev ++ prev else prev ++ stable

/-- The oracle interface consumed by the `lradi` driver: shifted-operator
solves (`LincombOperator([A, E], [1, σ]).apply_inverse` and its adjoint),
the actions of `E`, the composite `np.linalg.norm(W.gramian(), ord=2)`,
`np.sqrt`, and the two Galerkin eigenvalue pipelines used by the shift
generators. -/
structure Oracles where
  solveInv : Cplx → VecArr → VecArr
  solveInvAdj : Cplx → VecArr → VecArr
  Eapp : VecArr → VecArr
  EappAdj : VecArr → VecArr
  norm2gram : VecArr → ℚ
  sqrt : ℚ → ℚ
  eigsInit : VecArr → List Cplx
  pencilEigs : VecArr → VecArr → List Cplx → ℕ → List Cplx
  rng : RngOracles

/-- One ADI step of `lradi` on the current shift `σ` (source lines 140-162).
Returns the columns appended to `Z`, the updated `W`, and the advance of the
iteration index `j` (1 for a real shift, 2 for a complex-conjugate pair).
The real branch shifts by `shifts[j].real`; the complex branch conjugates
the adjoint solve in the `trans` case and performs the real-arithmetic
reformulation with `g = 2√(-Re σ)` and `d = Re σ / Im σ`. -/
def lradiStep (or : Oracles) (trans : Bool) (σ : Cplx) (W : VecArr) :
    VecArr × VecArr × ℕ :=
  if σ.im = 0 then
    let V := if trans then or.solveInvAdj ⟨σ.re, 0⟩ W else or.solveInv ⟨σ.re, 0⟩ W
    let W' := subArr W (smulArr (2 * σ.re) (if trans then or.EappAdj V else or.Eapp V))
    (smulArr (or.sqrt (-(2 * σ.re))) V, W', 1)
  else
    let V := if trans then conjArr (or.solveInvAdj σ W) else or.solveInv σ W
    let g := 2 * or.sqrt (-σ.re)
    let d := σ.re / σ.im
    let Vrd := addArr (reArr V) (smulArr d (imArr V))
    let W' := addArr W (smulArr (g ^ 2) (if trans then or.EappAdj Vrd else or.Eapp Vrd))
    (smulArr g Vrd ++ smulArr (g * or.sqrt (d ^ 2 + 1)) (imArr V), W', 2)

/-- The driver's loop state: solution factor `Z` (a list of columns),
residual factor `W`, iteration index `j`, and the current shift sequence. -/
structure LoopState where
  Z : VecArr
  W : VecArr
  j : ℕ
  shifts : List Cplx

/-- One pass of the `while` loop of `lradi` (source lines 139-167): take one
ADI step on shift `shifts[j]`, append the new columns to `Z`, advance `j`,
and refresh the shift sequence via `projection_shifts` when `j` has reached
its end (source lines 163-165).  In `lradiLoop` below, the `fuel` argument
is an upper bound on the remaining passes; since `j` grows by at least 1 per
pass and the guard requires `j < maxiter`, fuel `maxiter - j` always
suffices, so the `0` case is never reached from `lradi`'s call. -/
def lradiBody (or : Oracles) (trans : Bool) (sOpts : ShiftOptions)
    (s : LoopState) : LoopState :=
  let σ := s.shifts.getD s.j default
  let step := lradiStep or trans σ s.W
  let Z' := s.Z ++ step.1
  let W' := step.2.1
  let j' := s.j + step.2.2
  let shifts' :=
    if s.shifts.length ≤ j' then projection_shifts or.pencilEigs sOpts Z' W' s.shifts
    else s.shifts
  ⟨Z', W', j', shifts'⟩

/-- The `while` loop itself: keep stepping while `res > Btol and
j < options['maxiter']` (source line 139). -/
def lradiLoop (or : Oracles) (trans : Bool) (sOpts : ShiftOptions) (Btol : ℚ)
    (maxiter : ℕ) : ℕ → LoopState → LoopState
  | 0, s => s
  | fuel + 1, s =>
    if or.norm2gram s.W > Btol ∧ s.j < maxiter then
      lradiLoop or trans sOpts Btol maxiter fuel (lradiBody or trans sOpts s)
    else s

/-- The fatal errors of the facade and driver: `ValueError('Unknown solver
type')`, `ValueError('Unknown lradi shift strategy')`, and the initializer's
`RuntimeError`. -/
inductive LyapError where
  | unknownSolverType
  | unknownShiftStrategy
  | shiftInitFailure
deriving DecidableEq, Repr

/-- Observable outcome of a completed `lradi` call: the returned factor `Z`,
the final residual factor and iteration index, and whether the
non-convergence warning (source lines 169-171) was emitted. -/
structure LradiResult where
  Z : VecArr
  W : VecArr
  j : ℕ
  warned : Bool
deriving Repr

/-- `lradi(A, E, B, trans, options)` (source lines 91-173).  An unknown
shift-strategy `type` raises before anything else runs; otherwise `W` is the
array of `B`, the initializer produces the starting shifts (its
`RuntimeError` propagates), `Btol = res * tol` with `res` the spectral norm
of `gramian(W)`, the ADI loop runs, and the warning fires exactly when the
final residual still exceeds `Btol`. -/
def lradi (or : Oracles) (B : VecArr) (trans : Bool) (opts : LradiOptions)
    (st : ℕ) : Except LyapError LradiResult :=
  if opts.shiftOpts.type = "projection_shifts" then
    let W := B
    let ir := projection_shifts_init or.eigsInit or.rng opts.shiftOpts W st
    match ir.res with
    | .error _ => .error .shiftInitFailure
    | .ok shifts0 =>
      let res := or.norm2gram W
      let Btol := res * opts.tol
      let fin := lradiLoop or trans opts.shiftOpts Btol opts.maxiter opts.maxiter
        ⟨[], W, 0, shifts0⟩
      .ok ⟨fin.Z, fin.W, fin.j, decide (or.norm2gram fin.W > Btol)⟩
  else .error .unknownShiftStrategy

/-- `solve_lyap(A, E, B, trans, options)` (source lines 16-63): dispatch on
the parsed options' `type`; anything other than `'lradi'` raises
`ValueError('Unknown solver type')`. -/
def solve_lyap (or : Oracles) (B : VecArr) (trans : Bool) (opts : LradiOptions)
    (st : ℕ) : Except LyapError LradiResult :=
  if opts.type = "lradi" then lradi or B trans opts st
  else .error .unknownSolverType

/-- The complex-shift step as the specification words it (spec section 4.2,
complex-shift bullet): solve `V = (A+σE)⁻¹ W` (conjugated for the
adjoint/trans case), let `g = 2√(−Re σ)` and `d = Re(σ)/Im(σ)`, update
`W ← W + g²·E(Re V + d·Im V)` (adjoint form for trans), append the two real
column blocks `(Re V + d·Im V)·g` and `Im(V)·g·√(d²+1)` to `Z`, and consume
2 shifts.  Stated independently of `lradiStep` to compare the two. -/
def lradiComplexStepSpec (or : Oracles) (trans : Bool) (σ : Cplx) (W : VecArr) :
    VecArr × VecArr × ℕ :=
  let V := if trans then conjArr (or.solveInvAdj σ W) else or.solveInv σ W
  let ReVdImV := addArr (reArr V) (smulArr (σ.re / σ.im) (imArr V))
  let g := 2 * or.sqrt (-σ.re)
  let Wnew := addArr W (smulArr (g ^ 2)
    (if trans then or.EappAdj ReVdImV else or.Eapp ReVdImV))
  (smulArr g ReVdImV ++ smulArr (g * or.sqrt ((σ.re / σ.im) ^ 2 + 1)) (imArr V),
    Wnew, 2)

/-- A concrete instantiation of the random-generator oracles, used to
evaluate the definitions on closed inputs. -/
def demoRng : RngOracles where
  seedFn := fun _ => 0
  randomFn := fun st => ((st : ℚ) / 2, st + 1)
  randFn := fun st n m => (List.replicate n (List.replicate m ⟨1, 0⟩), st + 1)

/-- A concrete instantiation of the driver oracles: identity solves and
operator actions, constant unit norm and square root, and Galerkin pipelines
that always produce the single stable eigenvalue `-1`. -/
def demoOr : Oracles where
  solveInv := fun _ W => W
  solveInvAdj := fun _ W => W
  Eapp := fun W => W
  EappAdj := fun W => W
  norm2gram := fun _ => 1
  sqrt := fun _ => 1
  eigsInit := fun _ => [⟨-1, 0⟩]
  pencilEigs := fun _ _ _ _ => [⟨-1, 0⟩]
  rng := demoRng

/-- Like `demoOr` but with Galerkin pipelines producing the stable complex
eigenvalue `-1 + i`, so every ADI step is a conjugate-pair step. -/
def demoOrC : Oracles :=
  { demoOr with
    eigsInit := fun _ => [⟨-1, 1⟩]
    pencilEigs := fun _ _ _ _ => [⟨-1, 1⟩] }

/-- Galerkin pipelines that never produce a stable eigenvalue (an unstable
pencil), for exercising the failure paths. -/
def demoOrUnstable : Oracles :=
  { demoOr with
    eigsInit := fun _ => [⟨1, 0⟩]
    pencilEigs := fun _ _ _ _ => [⟨2, 3⟩] }

section Lemmas

lemma smulArr_length (q : ℚ) (V : VecArr) : (smulArr q V).length = V.length :=
  List.length_map _ _

lemma reArr_length (V : VecArr) : (reArr V).length = V.length :=
  List.length_map _ _

lemma imArr_length (V : VecArr) : (imArr V).length = V.length :=
  List.length_map _ _

lemma conjArr_length (V : VecArr) : (conjArr V).length = V.length :=
  List.length_map _ _

lemma addArr_length (V W : VecArr) :
    (addArr V W).length = min V.length W.length :=
  List.length_zipWith _ _ _

lemma subArr_length (V W : VecArr) :
    (subArr V W).length = min V.length W.length :=
  List.length_zipWith _ _ _

lemma isRealArr_reArr (V : VecArr) : IsRealArr (reArr V) := by
  intro v hv c hc
  simp only [reArr, List.mem_map] at hv
  obtain ⟨w, _, rfl⟩ := hv
  simp only [List.mem_map] at hc
  obtain ⟨a, _, rfl⟩ := hc
  rfl

lemma isRealArr_imArr (V : VecArr) : IsRealArr (imArr V) := by
  intro v hv c hc
  simp only [imArr, List.mem_map] at hv
  obtain ⟨w, _, rfl⟩ := hv
  simp only [List.mem_map] at hc
  obtain ⟨a, _, rfl⟩ := hc
  rfl

lemma isRealArr_smulArr (q : ℚ) (V : VecArr) (h : IsRealArr V) :
    IsRealArr (smulArr q V) := by
  intro v hv c hc
  simp only [smulArr, List.mem_map] at hv
  obtain ⟨w, hw, rfl⟩ := hv
  simp only [List.mem_map] at hc
  obtain ⟨a, ha, rfl⟩ := hc
  simp [Cplx.smul, h w hw a ha]

lemma exists_of_mem_zipWith {α β γ : Type} {f : α → β → γ} :
    ∀ {l₁ : List α} {l₂ : List β} {c : γ}, c ∈ List.zipWith f l₁ l₂ →
      ∃ a ∈ l₁, ∃ b ∈ l₂, c = f a b := by
  intro l₁
  induction l₁ with
  | nil => intro l₂ c h; simp at h
  | cons a t ih =>
    intro l₂ c h
    cases l₂ with
    | nil => simp at h
    | cons b t₂ =>
      simp only [List.zipWith_cons_cons, List.mem_cons] at h
      rcases h with rfl | h
      · exact ⟨a, by simp, b, by simp, rfl⟩
      · obtain ⟨x, hx, y, hy, rfl⟩ := ih h
        exact ⟨x, by simp [hx], y, by simp [hy], rfl⟩

lemma isRealArr_addArr (V W : VecArr) (hV : IsRealArr V) (hW : IsRealArr W) :
    IsRealArr (addArr V W) := by
  intro v hv c hc
  obtain ⟨a, ha, b, hb, rfl⟩ := exists_of_mem_zipWith hv
  obtain ⟨x, hx, y, hy, rfl⟩ := exists_of_mem_zipWith hc
  simp [Cplx.add, hV a ha x hx, hW b hb y hy]

lemma isRealArr_subArr (V W : VecArr) (hV : IsRealArr V) (hW : IsRealArr W) :
    IsRealArr (subArr V W) := by
  intro v hv c hc
  obtain ⟨a, ha, b, hb, rfl⟩ := exists_of_mem_zipWith hv
  obtain ⟨x, hx, y, hy, rfl⟩ := exists_of_mem_zipWith hc
  simp [Cplx.sub, hV a ha x hx, hW b hb y hy]

lemma isRealArr_append (V W : VecArr) (hV : IsRealArr V) (hW : IsRealArr W) :
    IsRealArr (V ++ W) := by
  intro v hv c hc
  rcases List.mem_append.mp hv with h | h
  · exact hV v h c hc
  · exact hW v h c hc

lemma projection_shifts_eq (pe : VecArr → VecArr → List Cplx → ℕ → List Cplx)
    (opts : ShiftOptions) (Z W : VecArr) (prev : List Cplx) :
    projection_shifts pe opts Z W prev =
      if freshStable pe opts Z W prev = [] then prev ++ prev
      else prev ++ freshStable pe opts Z W prev := by
  unfold projection_shifts
  rcases eq_or_ne (freshStable pe opts Z W prev) [] with h | h
  · simp [h]
  · simp [h]

lemma projInitAux_error_attempts (eigsOf : VecArr → List Cplx) (rg : RngOracles)
    (seed? : Option ℤ) (m : ℕ)
    (hfail : ∀ arr : VecArr, (eigsOf arr).filter (fun σ => decide (σ.re < 0)) = []) :
    ∀ (n : ℕ) (B : VecArr) (st : ℕ),
      (projInitAux eigsOf rg seed? m n B st).res = .error () ∧
      (projInitAux eigsOf rg seed? m n B st).attempts = n := by
  intro n
  induction n with
  | zero => intro B st; exact ⟨rfl, rfl⟩
  | succ k ih =>
    intro B st
    unfold projInitAux
    rw [hfail B]
    simp only [List.isEmpty_nil, if_true]
    exact ⟨(ih _ _).1, by rw [(ih _ _).2]⟩

lemma projInitAux_ok_stable (eigsOf : VecArr → List Cplx) (rg : RngOracles)
    (seed? : Option ℤ) (m : ℕ) :
    ∀ (n : ℕ) (B : VecArr) (st : ℕ) (l : List Cplx),
      (projInitAux eigsOf rg seed? m n B st).res = .ok l →
      l ≠ [] ∧ ∀ σ ∈ l, σ.re < 0 := by
  intro n
  induction n with
  | zero => intro B st l h; simp [projInitAux] at h
  | succ k ih =>
    intro B st l h
    unfold projInitAux at h
    by_cases hE : ((eigsOf B).filter (fun σ => decide (σ.re < 0))).isEmpty
    · simp only [hE, if_true] at h
      exact ih _ _ l h
    · simp only [hE] at h
      rw [if_neg (by simp [hE])] at h
      obtain rfl : (eigsOf B).filter (fun σ => decide (σ.re < 0)) = l :=
        Except.ok.inj h
      refine ⟨by simpa [List.isEmpty_iff] using hE, ?_⟩
      intro σ hσ
      simpa using (List.mem_filter.mp hσ).2

lemma freshStable_stable (pe : VecArr → VecArr → List Cplx → ℕ → List Cplx)
    (opts : ShiftOptions) (Z W : VecArr) (prev : List Cplx) :
    ∀ σ ∈ freshStable pe opts Z W prev, σ.re < 0 := by
  intro σ hσ
  unfold freshStable at hσ
  simpa using (List.mem_filter.mp hσ).2

lemma lradiStep_counts (or : Oracles) (trans : Bool) (σ : Cplx) (W : VecArr)
    (h1 : ∀ c V, (or.solveInv c V).length = V.length)
    (h2 : ∀ c V, (or.solveInvAdj c V).length = V.length)
    (h3 : ∀ V, (or.Eapp V).length = V.length)
    (h4 : ∀ V, (or.EappAdj V).length = V.length) :
    (lradiStep or trans σ W).2.2 = (if σ.im = 0 then 1 else 2) ∧
    (lradiStep or trans σ W).1.length = (if σ.im = 0 then 1 else 2) * W.length ∧
    (lradiStep or trans σ W).2.1.length = W.length := by
  by_cases hσ : σ.im = 0
  · simp only [lradiStep, if_pos hσ]
    cases trans <;>
      simp [hσ, smulArr_length, subArr_length, addArr_length, h1, h2, h3, h4,
        reArr_length, imArr_length, conjArr_length]
  · simp only [lradiStep, if_neg hσ]
    cases trans <;>
      simp [hσ, smulArr_length, subArr_length, addArr_length, h1, h2, h3, h4,
        reArr_length, imArr_length, conjArr_length, two_mul]

lemma lradiStep_inc_bounds (or : Oracles) (trans : Bool) (σ : Cplx) (W : VecArr) :
    1 ≤ (lradiStep or trans σ W).2.2 ∧ (lradiStep or trans σ W).2.2 ≤ 2 := by
  unfold lradiStep
  split <;> simp

lemma lradiLoop_invariant (or : Oracles) (trans : Bool) (sOpts : ShiftOptions)
    (Btol : ℚ) (maxiter : ℕ)
    (h1 : ∀ c V, (or.solveInv c V).length = V.length)
    (h2 : ∀ c V, (or.solveInvAdj c V).length = V.length)
    (h3 : ∀ V, (or.Eapp V).length = V.length)
    (h4 : ∀ V, (or.EappAdj V).length = V.length) :
    ∀ (fuel : ℕ) (s : LoopState), s.Z.length = s.W.length * s.j →
      (lradiLoop or trans sOpts Btol maxiter fuel s).W.length = s.W.length ∧
      (lradiLoop or trans sOpts Btol maxiter fuel s).Z.length =
        s.W.length * (lradiLoop or trans sOpts Btol maxiter fuel s).j := by
  intro fuel
  induction fuel with
  | zero => intro s hs; exact ⟨rfl, hs⟩
  | succ k ih =>
    intro s hs
    unfold lradiLoop
    split
    · have hc := lradiStep_counts or trans (s.shifts.getD s.j default) s.W h1 h2 h3 h4
      have hbodyW : (lradiBody or trans sOpts s).W.length = s.W.length := by
        simp only [lradiBody]
        exact hc.2.2
      have hbodyZ : (lradiBody or trans sOpts s).Z.length =
          (lradiBody or trans sOpts s).W.length * (lradiBody or trans sOpts s).j := by
        simp only [lradiBody]
        rw [hc.2.2, List.length_append, hs, hc.2.1, hc.1]
        ring
      have hb := ih (lradiBody or trans sOpts s) hbodyZ
      exact ⟨by rw [hb.1, hbodyW], by rw [hb.2, hbodyW]⟩
    · exact ⟨rfl, hs⟩

lemma lradiLoop_j_le (or : Oracles) (trans : Bool) (sOpts : ShiftOptions)
    (Btol : ℚ) (maxiter : ℕ) :
    ∀ (fuel : ℕ) (s : LoopState), s.j ≤ maxiter + 1 →
      (lradiLoop or trans sOpts Btol maxiter fuel s).j ≤ maxiter + 1 := by
  intro fuel
  induction fuel with
  | zero => intro s hs; exact hs
  | succ k ih =>
    intro s hs
    unfold lradiLoop
    split
    · rename_i hg
      apply ih
      simp only [lradiBody]
      have hj := hg.2
      have hinc := (lradiStep_inc_bounds or trans (s.shifts.getD s.j default) s.W).2
      omega
    · exact hs

lemma lradiLoop_exit (or : Oracles) (trans : Bool) (sOpts : ShiftOptions)
    (Btol : ℚ) (maxiter : ℕ) :
    ∀ (fuel : ℕ) (s : LoopState), maxiter - s.j ≤ fuel →
      ¬(or.norm2gram (lradiLoop or trans sOpts Btol maxiter fuel s).W > Btol ∧
        (lradiLoop or trans sOpts Btol maxiter fuel s).j < maxiter) := by
  intro fuel
  induction fuel with
  | zero =>
    intro s hs hcon
    have h0 : lradiLoop or trans sOpts Btol maxiter 0 s = s := rfl
    rw [h0] at hcon
    exact absurd hcon.2 (by omega)
  | succ k ih =>
    intro s hs
    unfold lradiLoop
    split
    · rename_i hg
      apply ih
      simp only [lradiBody]
      have hj := hg.2
      have hinc := (lradiStep_inc_bounds or trans (s.shifts.getD s.j default) s.W).1
      omega
    · rename_i hg
      exact hg

end Lemmas

/-- The shift sequences the LR-ADI driver can ever index into: the
initializer's output (source line 133) and every refinement of a reachable
sequence by `projection_shifts` (source lines 163-165). -/
inductive ReachableShifts (or : Oracles) (opts : ShiftOptions) : List Cplx → Prop
  | init (B : VecArr) (st : ℕ) (l : List Cplx)
      (h : (projection_shifts_init or.eigsInit or.rng opts B st).res = .ok l) :
      ReachableShifts or opts l
  | update (Z W : VecArr) (prev : List Cplx)
      (hp : ReachableShifts or opts prev) :
      ReachableShifts or opts (projection_shifts or.pencilEigs opts Z W prev)

/-- C1: every shift sequence the driver can hold — the initializer's output
and all its refinements by the updater — contains only entries with strictly
negative real part, for every behaviour of the external eigenvalue solver. -/
theorem shift_stability_invariant (or : Oracles) (opts : ShiftOptions)
    (l : List Cplx) (h : ReachableShifts or opts l) :
    ∀ σ ∈ l, σ.re < 0 := by
  induction h with
  | init B st l h =>
    exact (projInitAux_ok_stable or.eigsInit or.rng opts.init_seed
      opts.init_maxiter opts.init_maxiter B st l h).2
  | update Z W prev hp ih =>
    intro σ hσ
    rw [projection_shifts_eq] at hσ
    split at hσ
    · rcases List.mem_append.mp hσ with h' | h'
      · exact ih σ h'
      · exact ih σ h'
    · rcases List.mem_append.mp hσ with h' | h'
      · exact ih σ h'
      · exact freshStable_stable or.pencilEigs opts Z W prev σ h'

/-- Witness for C1: a concretely reachable singleton shift set, whose entry
`-1` indeed has negative real part. -/
theorem shift_stability_invariant_witness : (⟨-1, 0⟩ : Cplx).re < 0 :=
  shift_stability_invariant demoOr lyap_solver_options.shiftOpts [⟨-1, 0⟩]
    (ReachableShifts.init [] 0 [⟨-1, 0⟩] rfl) ⟨-1, 0⟩ (by simp)

/-- C2: a real shift appends one block of `r = len(W)` columns to `Z` and
advances `j` by 1; a complex shift appends two blocks (`2r` columns) and
advances `j` by 2; consequently at termination the number of columns of `Z`
is `r` times the sum over consumed shifts of their weight, i.e.
`len(Z) = len(B) * j`.  The hypotheses are the shape contracts of the
operator interface: solves and applications of `E` preserve the number of
columns. -/
theorem lradi_step_and_column_count (or : Oracles)
    (h1 : ∀ c V, (or.solveInv c V).length = V.length)
    (h2 : ∀ c V, (or.solveInvAdj c V).length = V.length)
    (h3 : ∀ V, (or.Eapp V).length = V.length)
    (h4 : ∀ V, (or.EappAdj V).length = V.length) :
    (∀ (trans : Bool) (σ : Cplx) (W : VecArr), σ.im = 0 →
        (lradiStep or trans σ W).2.2 = 1 ∧
        (lradiStep or trans σ W).1.length = 1 * W.length) ∧
    (∀ (trans : Bool) (σ : Cplx) (W : VecArr), σ.im ≠ 0 →
        (lradiStep or trans σ W).2.2 = 2 ∧
        (lradiStep or trans σ W).1.length = 2 * W.length) ∧
    (∀ (B : VecArr) (trans : Bool) (opts : LradiOptions) (st : ℕ)
        (res : LradiResult), lradi or B trans opts st = .ok res →
        res.W.length = B.length ∧ res.Z.length = B.length * res.j) := by
  refine ⟨?_, ?_, ?_⟩
  · intro trans σ W hσ
    have hc := lradiStep_counts or trans σ W h1 h2 h3 h4
    rw [if_pos hσ] at hc
    exact ⟨hc.1, hc.2.1⟩
  · intro trans σ W hσ
    have hc := lradiStep_counts or trans σ W h1 h2 h3 h4
    rw [if_neg hσ] at hc
    exact ⟨hc.1, hc.2.1⟩
  · intro B trans opts st res h
    simp only [lradi] at h
    split at h
    · split at h
      · exact absurd h (by simp)
      · rename_i l hl
        obtain rfl := Except.ok.inj h
        have := lradiLoop_invariant or trans opts.shiftOpts
          (or.norm2gram B * opts.tol) opts.maxiter h1 h2 h3 h4 opts.maxiter
          ⟨[], B, 0, l⟩ (by simp)
        exact ⟨this.1, this.2⟩
    · exact absurd h (by simp)

/-- Witness for C2: a one-column `B` with identity oracles; after a
three-step run `Z` has `1 * 3` columns. -/
theorem lradi_step_and_column_count_witness :
    lradi demoOr [[⟨1, 0⟩]] false
        { lyap_solver_options with tol := 0, maxiter := 3 } 0 =
      .ok ⟨[[⟨1, 0⟩], [⟨3, 0⟩], [⟨9, 0⟩]], [[⟨27, 0⟩]], 3, true⟩ ∧
    ([[(⟨1, 0⟩ : Cplx)], [⟨3, 0⟩], [⟨9, 0⟩]].length =
      [[(⟨1, 0⟩ : Cplx)]].length * 3) := by
  have heq : lradi demoOr [[⟨1, 0⟩]] false
      { lyap_solver_options with tol := 0, maxiter := 3 } 0 =
      .ok ⟨[[⟨1, 0⟩], [⟨3, 0⟩], [⟨9, 0⟩]], [[⟨27, 0⟩]], 3, true⟩ := by
    with_unfolding_all rfl
  have h := (lradi_step_and_column_count demoOr (fun _ _ => rfl) (fun _ _ => rfl)
    (fun _ => rfl) (fun _ => rfl)).2.2 [[⟨1, 0⟩]] false
    { lyap_solver_options with tol := 0, maxiter := 3 } 0
    ⟨[[⟨1, 0⟩], [⟨3, 0⟩], [⟨9, 0⟩]], [[⟨27, 0⟩]], 3, true⟩ heq
  exact ⟨heq, h.2⟩

/-- C3: for a complex shift (nonzero imaginary part) the ADI step agrees
with the specification's real-arithmetic reformulation — solve
`V = (A+σE)⁻¹W` (conjugated adjoint solve for trans), `g = 2√(−Re σ)`,
`d = Re σ / Im σ`, update `W ← W + g²·E(Re V + d·Im V)` (adjoint form for
trans), append `(Re V + d·Im V)·g` and `Im(V)·g·√(d²+1)`, consume 2
shifts — and the appended columns and the updated `W` are real-valued; real
shifts also preserve realness, so `Z` and `W` stay real after every step. -/
theorem lradi_complex_step_real_arithmetic (or : Oracles) (trans : Bool)
    (σ : Cplx) (W : VecArr) (hσ : σ.im ≠ 0) (hW : IsRealArr W)
    (hE : ∀ V, IsRealArr V → IsRealArr (or.Eapp V))
    (hEadj : ∀ V, IsRealArr V → IsRealArr (or.EappAdj V)) :
    lradiStep or trans σ W = lradiComplexStepSpec or trans σ W ∧
    (lradiStep or trans σ W).2.2 = 2 ∧
    IsRealArr (lradiStep or trans σ W).1 ∧
    IsRealArr (lradiStep or trans σ W).2.1 ∧
    (∀ τ : Cplx, τ.im = 0 →
      (∀ V, IsRealArr V → IsRealArr (or.solveInv ⟨τ.re, 0⟩ V)) →
      (∀ V, IsRealArr V → IsRealArr (or.solveInvAdj ⟨τ.re, 0⟩ V)) →
      IsRealArr (lradiStep or trans τ W).1 ∧
      IsRealArr (lradiStep or trans τ W).2.1) := by
  have hstep : lradiStep or trans σ W = lradiComplexStepSpec or trans σ W := by
    unfold lradiStep
    rw [if_neg hσ]
    rfl
  have hVrd : ∀ V : VecArr,
      IsRealArr (addArr (reArr V) (smulArr (σ.re / σ.im) (imArr V))) := fun V =>
    isRealArr_addArr _ _ (isRealArr_reArr V)
      (isRealArr_smulArr _ _ (isRealArr_imArr V))
  refine ⟨hstep, by rw [hstep]; rfl, ?_, ?_, ?_⟩
  · rw [hstep]
    simp only [lradiComplexStepSpec]
    exact isRealArr_append _ _ (isRealArr_smulArr _ _ (hVrd _))
      (isRealArr_smulArr _ _ (isRealArr_imArr _))
  · rw [hstep]
    simp only [lradiComplexStepSpec]
    cases trans <;>
      exact isRealArr_addArr _ _ hW
        (isRealArr_smulArr _ _ (by first
          | exact hE _ (hVrd _)
          | exact hEadj _ (hVrd _)))
  · intro τ hτ hsolve hsolveAdj
    simp only [lradiStep, if_pos hτ]
    cases trans
    · exact ⟨isRealArr_smulArr _ _ (hsolve _ hW),
        isRealArr_subArr _ _ hW
          (isRealArr_smulArr _ _ (hE _ (hsolve _ hW)))⟩
    · exact ⟨isRealArr_smulArr _ _ (hsolveAdj _ hW),
        isRealArr_subArr _ _ hW
          (isRealArr_smulArr _ _ (hEadj _ (hsolveAdj _ hW)))⟩

/-- Witness for C3: the complex shift `-1 + i` on a real one-column `W` with
identity oracles. -/
theorem lradi_complex_step_real_arithmetic_witness :
    lradiStep demoOr false ⟨-1, 1⟩ [[⟨1, 0⟩]] =
      lradiComplexStepSpec demoOr false ⟨-1, 1⟩ [[⟨1, 0⟩]] ∧
    IsRealArr (lradiStep demoOr false ⟨-1, 1⟩ [[⟨1, 0⟩]]).1 ∧
    IsRealArr (lradiStep demoOr false ⟨-1, 1⟩ [[⟨1, 0⟩]]).2.1 := by
  have h := lradi_complex_step_real_arithmetic demoOr false ⟨-1, 1⟩ [[⟨1, 0⟩]]
    (by decide) (by decide) (fun V hV => hV) (fun V hV => hV)
  exact ⟨h.1, h.2.2.1, h.2.2.2.1⟩

/-- C5: the loop advances exactly while `res > Btol` and `j < maxiter` (one
pass when the guard holds, immediate stop when it fails); and whenever the
strategy is recognized and the initializer succeeds, `lradi` returns `Z`
normally with the final state violating the guard, the warning flag set
exactly when the tolerance was not met — budget exhaustion is not an
error. -/
theorem lradi_guard_and_nonconvergence_nonfatal (or : Oracles) :
    (∀ (trans : Bool) (sOpts : ShiftOptions) (Btol : ℚ) (maxiter fuel : ℕ)
        (s : LoopState),
        (or.norm2gram s.W > Btol ∧ s.j < maxiter →
          lradiLoop or trans sOpts Btol maxiter (fuel + 1) s =
            lradiLoop or trans sOpts Btol maxiter fuel
              (lradiBody or trans sOpts s)) ∧
        (¬(or.norm2gram s.W > Btol ∧ s.j < maxiter) →
          lradiLoop or trans sOpts Btol maxiter (fuel + 1) s = s)) ∧
    (∀ (B : VecArr) (trans : Bool) (opts : LradiOptions) (st : ℕ),
        opts.shiftOpts.type = "projection_shifts" →
        ∀ l, (projection_shifts_init or.eigsInit or.rng opts.shiftOpts B st).res =
          .ok l →
        ∃ res, lradi or B trans opts st = .ok res ∧
          (or.norm2gram res.W ≤ or.norm2gram B * opts.tol ∨
            opts.maxiter ≤ res.j) ∧
          res.warned = decide (or.norm2gram res.W > or.norm2gram B * opts.tol)) := by
  constructor
  · intro trans sOpts Btol maxiter fuel s
    constructor
    · intro hg
      show (if or.norm2gram s.W > Btol ∧ s.j < maxiter then
          lradiLoop or trans sOpts Btol maxiter fuel (lradiBody or trans sOpts s)
        else s) = _
      rw [if_pos hg]
    · intro hg
      show (if or.norm2gram s.W > Btol ∧ s.j < maxiter then
          lradiLoop or trans sOpts Btol maxiter fuel (lradiBody or trans sOpts s)
        else s) = _
      rw [if_neg hg]
  · intro B trans opts st htype l hinit
    simp only [lradi]
    rw [if_pos htype, hinit]
    refine ⟨_, rfl, ?_, rfl⟩
    have hexit := lradiLoop_exit or trans opts.shiftOpts
      (or.norm2gram B * opts.tol) opts.maxiter opts.maxiter
      ⟨[], B, 0, l⟩ (by omega)
    rcases not_and_or.mp hexit with h | h
    · exact Or.inl (not_lt.mp h)
    · exact Or.inr (not_lt.mp h)

/-- Witness for C5: the constant-norm oracle with `tol = 0` can never
converge, so a `maxiter = 1` run exhausts the budget, returns `Z` normally
and sets the warning flag. -/
theorem lradi_guard_and_nonconvergence_nonfatal_witness :
    ∃ res, lradi demoOr [[⟨1, 0⟩]] false
        { lyap_solver_options with tol := 0, maxiter := 1 } 0 = .ok res ∧
      (demoOr.norm2gram res.W ≤ demoOr.norm2gram [[⟨1, 0⟩]] *
          ({ lyap_solver_options with tol := 0, maxiter := 1 } : LradiOptions).tol ∨
        ({ lyap_solver_options with tol := 0, maxiter := 1 } : LradiOptions).maxiter ≤
          res.j) ∧
      res.warned = decide (demoOr.norm2gram res.W >
        demoOr.norm2gram [[⟨1, 0⟩]] *
          ({ lyap_solver_options with tol := 0, maxiter := 1 } : LradiOptions).tol) :=
  (lradi_guard_and_nonconvergence_nonfatal demoOr).2 [[⟨1, 0⟩]] false
    { lyap_solver_options with tol := 0, maxiter := 1 } 0 rfl [⟨-1, 0⟩] rfl

/-- C10: the guard only checks `j < maxiter` before a step and a
conjugate-pair step advances `j` by 2, so on normal return `j ≤ maxiter + 1`
always holds, and `j = maxiter + 1` is attained (a complex step entered at
`j = maxiter - 1`), so the bound `j ≤ maxiter` does not hold in general. -/
theorem lradi_index_overshoot_bound :
    (∀ (or : Oracles) (B : VecArr) (trans : Bool) (opts : LradiOptions) (st : ℕ)
        (res : LradiResult), lradi or B trans opts st = .ok res →
        res.j ≤ opts.maxiter + 1) ∧
    (∃ (or : Oracles) (B : VecArr) (trans : Bool) (opts : LradiOptions) (st : ℕ)
        (res : LradiResult), lradi or B trans opts st = .ok res ∧
        res.j = opts.maxiter + 1) := by
  constructor
  · intro or B trans opts st res h
    simp only [lradi] at h
    split at h
    · split at h
      · exact absurd h (by simp)
      · rename_i l hl
        obtain rfl := Except.ok.inj h
        exact lradiLoop_j_le or trans opts.shiftOpts
          (or.norm2gram B * opts.tol) opts.maxiter opts.maxiter
          ⟨[], B, 0, l⟩ (Nat.zero_le _)
    · exact absurd h (by simp)
  · exact ⟨demoOrC, [[⟨1, 0⟩]], false,
      { lyap_solver_options with tol := 0, maxiter := 1 }, 0,
      ⟨[[⟨2, 0⟩], [⟨0, 0⟩]], [[⟨5, 0⟩]], 2, true⟩,
      by with_unfolding_all rfl, rfl⟩

/-- Witness for C10: the universal bound applied to the concrete
conjugate-pair overshoot run, where the final index is `maxiter + 1 = 2`. -/
theorem lradi_index_overshoot_bound_witness :
    (⟨[[⟨2, 0⟩], [⟨0, 0⟩]], [[⟨5, 0⟩]], 2, true⟩ : LradiResult).j ≤ 1 + 1 :=
  lradi_index_overshoot_bound.1 demoOrC [[⟨1, 0⟩]] false
    { lyap_solver_options with tol := 0, maxiter := 1 } 0
    ⟨[[⟨2, 0⟩], [⟨0, 0⟩]], [[⟨5, 0⟩]], 2, true⟩ (by with_unfolding_all rfl)

/-- C6: if the Galerkin projection finds no eigenvalue with negative real
part on the initial subspace and on every random replacement subspace,
`projection_shifts_init` raises the fatal `RuntimeError` after exactly
`init_maxiter` attempts; and a normal return is never an empty shift set. -/
theorem projection_shifts_init_exhaustion (eigsOf : VecArr → List Cplx)
    (rg : RngOracles) (opts : ShiftOptions) (B : VecArr) (st : ℕ) :
    ((∀ arr : VecArr, (eigsOf arr).filter (fun σ => decide (σ.re < 0)) = []) →
      (projection_shifts_init eigsOf rg opts B st).res = .error () ∧
      (projection_shifts_init eigsOf rg opts B st).attempts = opts.init_maxiter) ∧
    (∀ l, (projection_shifts_init eigsOf rg opts B st).res = .ok l → l ≠ []) := by
  constructor
  · intro hfail
    exact projInitAux_error_attempts eigsOf rg opts.init_seed opts.init_maxiter
      hfail opts.init_maxiter B st
  · intro l h
    exact (projInitAux_ok_stable eigsOf rg opts.init_seed opts.init_maxiter
      opts.init_maxiter B st l h).1

/-- Witness for C6: an always-unstable Galerkin oracle makes the initializer
fail after exactly the default 20 attempts. -/
theorem projection_shifts_init_exhaustion_witness :
    (projection_shifts_init (fun _ => [⟨1, 0⟩]) demoRng
      lyap_solver_options.shiftOpts [[⟨1, 0⟩]] 0).res = .error () ∧
    (projection_shifts_init (fun _ => [⟨1, 0⟩]) demoRng
      lyap_solver_options.shiftOpts [[⟨1, 0⟩]] 0).attempts = 20 :=
  (projection_shifts_init_exhaustion (fun _ => [⟨1, 0⟩]) demoRng
    lyap_solver_options.shiftOpts [[⟨1, 0⟩]] 0).1 (fun _ => by decide)

/-- C9: with `init_seed` set, the initializer reseeds the global generator
from `init_seed` (and the retry index) before every random draw, so its
outcome is independent of the ambient generator state: two runs from any
two states return the same shifts after the same number of attempts. -/
theorem projection_shifts_init_seed_deterministic (eigsOf : VecArr → List Cplx)
    (rg : RngOracles) (opts : ShiftOptions) (B : VecArr) (s : ℤ)
    (hs : opts.init_seed = some s) (st₁ st₂ : ℕ) :
    (projection_shifts_init eigsOf rg opts B st₁).res =
      (projection_shifts_init eigsOf rg opts B st₂).res ∧
    (projection_shifts_init eigsOf rg opts B st₁).attempts =
      (projection_shifts_init eigsOf rg opts B st₂).attempts := by
  unfold projection_shifts_init
  rw [hs]
  cases hn : opts.init_maxiter with
  | zero => exact ⟨rfl, rfl⟩
  | succ k =>
    unfold projInitAux
    by_cases hE : ((eigsOf B).filter (fun σ => decide (σ.re < 0))).isEmpty
    · constructor <;> · simp only [hE, if_true]
    · constructor <;> · rw [if_neg (by simp [hE]), if_neg (by simp [hE])]

/-- Witness for C9: two runs from ambient generator states 5 and 11, with an
unstable first subspace so the seeded random fallback actually fires. -/
theorem projection_shifts_init_seed_deterministic_witness :
    (projection_shifts_init (fun arr => if arr.length = 0 then [⟨-3, 0⟩] else [⟨1, 0⟩])
        demoRng { lyap_solver_options.shiftOpts with init_seed := some 7 } [] 5).res =
      (projection_shifts_init (fun arr => if arr.length = 0 then [⟨-3, 0⟩] else [⟨1, 0⟩])
        demoRng { lyap_solver_options.shiftOpts with init_seed := some 7 } [] 11).res ∧
    (projection_shifts_init (fun arr => if arr.length = 0 then [⟨-3, 0⟩] else [⟨1, 0⟩])
        demoRng { lyap_solver_options.shiftOpts with init_seed := some 7 } [] 5).attempts =
      (projection_shifts_init (fun arr => if arr.length = 0 then [⟨-3, 0⟩] else [⟨1, 0⟩])
        demoRng { lyap_solver_options.shiftOpts with init_seed := some 7 } [] 11).attempts :=
  projection_shifts_init_seed_deterministic _ demoRng _ [] 7 rfl 5 11

/-- C7: for a positive `z_columns` and nonempty `prev_shifts`, the window
size computed by `projection_shifts` is `z_columns` clipped to the number of
previous shifts, plus one exactly when the shift at the window boundary has
negative imaginary part (the second half of a conjugate pair); and
`projection_shifts` projects onto the last `u * r` columns of `Z` with that
`u`. -/
theorem projection_shifts_window_size
    (pe : VecArr → VecArr → List Cplx → ℕ → List Cplx) (opts : ShiftOptions)
    (Z W : VecArr) (prev : List Cplx)
    (hzc : 1 ≤ opts.z_columns) (hprev : prev ≠ []) :
    shiftWindow opts.z_columns prev =
      min opts.z_columns prev.length +
        (if (prev.getD (prev.length - min opts.z_columns prev.length) default).im < 0
          then 1 else 0) ∧
    projection_shifts pe opts Z W prev =
      (let u := shiftWindow opts.z_columns prev
       let stable := (pe (Z.drop (Z.length - u * W.length)) W prev u).filter
         (fun σ => decide (σ.re < 0))
       if stable.isEmpty then prev ++ prev else prev ++ stable) := by
  have hL : 1 ≤ prev.length := List.length_pos.mpr hprev
  constructor
  · have hu1 : (if prev.length < opts.z_columns then prev.length else opts.z_columns) =
        min opts.z_columns prev.length := by
      rcases lt_or_ge prev.length opts.z_columns with h | h
      · rw [if_pos h, min_eq_right h.le]
      · rw [if_neg (not_lt.mpr h), min_eq_left h]
    have hpos : 0 < min opts.z_columns prev.length :=
      lt_min (by omega) (by omega)
    simp only [shiftWindow]
    rw [hu1, if_neg hpos.ne']
    split
    · rfl
    · rfl
  · rfl

/-- Witness for C7: two previous shifts forming one conjugate pair and
`z_columns = 1`; the boundary shift `-1 - i` is the second half of the pair,
so the window is enlarged from 1 to 2. -/
theorem projection_shifts_window_size_witness :
    shiftWindow 1 [⟨-1, 1⟩, ⟨-1, -1⟩] =
      min 1 [⟨-1, 1⟩, (⟨-1, -1⟩ : Cplx)].length +
        (if (([⟨-1, 1⟩, (⟨-1, -1⟩ : Cplx)].getD
              ([⟨-1, 1⟩, (⟨-1, -1⟩ : Cplx)].length -
                min 1 [⟨-1, 1⟩, (⟨-1, -1⟩ : Cplx)].length) default).im < 0)
          then 1 else 0) :=
  (projection_shifts_window_size demoOr.pencilEigs
    { lyap_solver_options.shiftOpts with z_columns := 1 } [] []
    [⟨-1, 1⟩, ⟨-1, -1⟩] (by decide) (by decide)).1

/-- C4: with nonempty `prev_shifts`, `projection_shifts` returns exactly
`prev_shifts` followed by the freshly computed stable eigenvalues, or by a
duplicate of `prev_shifts` when the projected pencil yields none with
negative real part; the input is an unaltered prefix and the output is
strictly longer. -/
theorem projection_shifts_prefix_extension
    (pe : VecArr → VecArr → List Cplx → ℕ → List Cplx) (opts : ShiftOptions)
    (Z W : VecArr) (prev : List Cplx) (hprev : prev ≠ []) :
    (projection_shifts pe opts Z W prev).take prev.length = prev ∧
    (freshStable pe opts Z W prev ≠ [] ∧
        projection_shifts pe opts Z W prev = prev ++ freshStable pe opts Z W prev ∨
      freshStable pe opts Z W prev = [] ∧
        projection_shifts pe opts Z W prev = prev ++ prev) ∧
    (∀ σ ∈ freshStable pe opts Z W prev, σ.re < 0) ∧
    prev.length < (projection_shifts pe opts Z W prev).length := by
  have hL : 0 < prev.length := List.length_pos.mpr hprev
  have hmem : ∀ σ ∈ freshStable pe opts Z W prev, σ.re < 0 := by
    intro σ hσ
    unfold freshStable at hσ
    simpa using (List.mem_filter.mp hσ).2
  rw [projection_shifts_eq]
  rcases eq_or_ne (freshStable pe opts Z W prev) [] with hnil | hnil
  · rw [if_pos hnil]
    refine ⟨List.take_left prev prev, Or.inr ⟨hnil, rfl⟩, hmem, ?_⟩
    simp [hL]
  · rw [if_neg hnil]
    refine ⟨List.take_left prev _, Or.inl ⟨hnil, rfl⟩, hmem, ?_⟩
    have : 0 < (freshStable pe opts Z W prev).length := List.length_pos.mpr hnil
    simp only [List.length_append]
    omega

/-- Witness for C4: one previous shift, a pencil oracle producing one stable
eigenvalue; the result is the two-element extension. -/
theorem projection_shifts_prefix_extension_witness :
    (projection_shifts demoOr.pencilEigs lyap_solver_options.shiftOpts
        [] [[⟨1, 0⟩]] [⟨-2, 0⟩]).take 1 = [⟨-2, 0⟩] ∧
    [(⟨-2, 0⟩ : Cplx)].length <
      (projection_shifts demoOr.pencilEigs lyap_solver_options.shiftOpts
        [] [[⟨1, 0⟩]] [⟨-2, 0⟩]).length := by
  have h := projection_shifts_prefix_extension demoOr.pencilEigs
    lyap_solver_options.shiftOpts [] [[⟨1, 0⟩]] [⟨-2, 0⟩] (by decide)
  exact ⟨h.1, h.2.2.2⟩

/-- C8: an unknown solver `type` makes `solve_lyap` fail with the unknown-
solver-type error, and an unknown shift strategy `type` makes `lradi` fail
with the unknown-shift-strategy error; in both cases the result is the same
for every oracle instantiation, so no shift generation, operator solve or
`Z` construction can have taken place. -/
theorem unknown_configuration_fatal :
    (∀ (or : Oracles) (B : VecArr) (trans : Bool) (opts : LradiOptions) (st : ℕ),
        opts.type ≠ "lradi" →
        solve_lyap or B trans opts st = .error .unknownSolverType) ∧
    (∀ (or : Oracles) (B : VecArr) (trans : Bool) (opts : LradiOptions) (st : ℕ),
        opts.shiftOpts.type ≠ "projection_shifts" →
        lradi or B trans opts st = .error .unknownShiftStrategy) := by
  constructor
  · intro or B trans opts st h
    simp [solve_lyap, h]
  · intro or B trans opts st h
    simp [lradi, h]

/-- Witness for C8: concrete unknown names for the solver type and the shift
strategy. -/
theorem unknown_configuration_fatal_witness :
    solve_lyap demoOr [] false { lyap_solver_options with type := "cholesky" } 0 =
      .error .unknownSolverType ∧
    lradi demoOr [] false
      { lyap_solver_options with
        shiftOpts := { lyap_solver_options.shiftOpts with type := "wachspress" } } 0 =
      .error .unknownShiftStrategy :=
  ⟨unknown_configuration_fatal.1 demoOr [] false _ 0 (by decide),
   unknown_configuration_fatal.2 demoOr [] false _ 0 (by decide)⟩

end PymorLyap
